import Mathlib

/-!
# Verification of the Infimum pallet against its specification

Shallow embedding of the Infimum anti-collusion voting pallet
(`src/pallet/src`), covering:

* the Poseidon sponge (`hash/poseidon.rs`);
* the amortised incremental Merkle accumulator (`poll/state.rs`);
* the poll provider operations (`poll/provider.rs`);
* the window predicates and admission extrinsics of the host adapter
  revision in `lib.rs`.

Field elements of the BN254 scalar field are modelled as `Nat` with
explicit reduction `% bn254r`; machine-word counts are modelled as `Nat`
(no claim below depends on wrap-around behaviour, and both the claim-side
and the code-side formulas are interpreted over the same arithmetic).
Byte strings are `List Nat` with each entry a byte value.

Two modules of the repository are declared but their source files are
absent (`poll/zeroes.rs`, declared in `poll/mod.rs`, and
`hash/parameters.rs`, referenced from `hash/poseidon.rs`).  Definitions
standing in for those modules are marked `Modelled from the spec:` in
their doc comments and follow the specification's words; every theorem
that depends on the concrete values of those tables says so.
-/

set_option maxRecDepth 200000

namespace Infimum

/-- The BN254 scalar-field modulus `r` (the modulus of arkworks' `ark_bn254::Fr`). -/
def bn254r : Nat :=
  21888242871839275222246405745257275088548364400416034343698204186575808495617

/-- Byte-length of the modulus: `(MODULUS_BIT_SIZE + 7) / 8 = (254 + 7) / 8 = 32`. -/
def modulusBytesLen : Nat := 32

/-- A 32-byte digest (`HashBytes = [u8; 32]` in `poll/poll.rs`). -/
abbrev HashBytes := List Nat

/-- All-zero 32-byte digest (`[0u8; 32]`). -/
def zeroBytes : HashBytes := List.replicate 32 0

/-- Big-endian byte interpretation followed by reduction modulo `r`
(`Fr::from_be_bytes_mod_order`). -/
def frFromBeBytesModOrder (bytes : List Nat) : Nat :=
  (bytes.foldl (fun acc b => acc * 256 + b) 0) % bn254r

/-- Little-endian byte interpretation followed by reduction modulo `r`
(`Fr::from_le_bytes_mod_order`). -/
def frFromLeBytesModOrder (bytes : List Nat) : Nat :=
  (bytes.foldr (fun b acc => acc * 256 + b) 0) % bn254r

/-- `Fr::from(n)` for an unsigned machine integer `n`. -/
def frFromNat (n : Nat) : Nat := n % bn254r

/-- `result.into_bigint().to_bytes_be()` for a field element: the fixed
32-byte big-endian encoding (arkworks' `BigInteger256::to_bytes_be`). -/
def natToBytesBe (n : Nat) : HashBytes :=
  (List.range 32).map (fun i => n / 256 ^ (31 - i) % 256)

/-- The error enumeration of `hash/poseidon.rs` (`PoseidonError`).  Payload
fields that only report sizes are dropped. -/
inductive PoseidonError where
  | InvalidNumberOfInputs : PoseidonError
  | EmptyInput : PoseidonError
  | InvalidInputLength : PoseidonError
  | BytesToPrimeFieldElement : PoseidonError
  | InputLargerThanModulus : PoseidonError
  | VecToArray : PoseidonError
  | U64ToU8 : PoseidonError
  | BytesToBigInt : PoseidonError
  | InvalidWidthCircom : PoseidonError
  deriving DecidableEq, Repr

/-- `PoseidonParameters<F>` of `hash/poseidon.rs`. -/
structure PoseidonParameters where
  ark : List Nat
  mds : List (List Nat)
  full_rounds : Nat
  partial_rounds : Nat
  width : Nat
  alpha : Nat
  deriving DecidableEq, Repr

/-- The stateful sponge `Poseidon<F>` of `hash/poseidon.rs`. -/
structure Poseidon where
  params : PoseidonParameters
  domain_tag : Nat
  state : List Nat
  deriving DecidableEq, Repr

namespace Poseidon

/-- `apply_ark`: add the round constants `ark[round*width + i]` to the state.
Out-of-range table accesses (impossible for well-formed parameter tables)
read `0`. -/
def applyArk (p : PoseidonParameters) (round : Nat) (state : List Nat) : List Nat :=
  state.mapIdx (fun i a => (a + p.ark.getD (round * p.width + i) 0) % bn254r)

/-- `apply_sbox_full`: raise every state element to the power `alpha`. -/
def applySboxFull (p : PoseidonParameters) (state : List Nat) : List Nat :=
  state.map (fun a => a ^ p.alpha % bn254r)

/-- `apply_sbox_partial`: raise only `state[0]` to the power `alpha`. -/
def applySboxPartial (p : PoseidonParameters) (state : List Nat) : List Nat :=
  match state with
  | [] => []
  | a :: rest => (a ^ p.alpha % bn254r) :: rest

/-- `apply_mds`: multiply the state by the MDS matrix,
`new_state[i] = Σ_j state[j] * mds[i][j]`.  Out-of-range matrix accesses
(impossible for well-formed parameter tables) read `0`. -/
def applyMds (p : PoseidonParameters) (state : List Nat) : List Nat :=
  (List.range state.length).map (fun i =>
    (state.mapIdx (fun j a => a * (p.mds.getD i []).getD j 0)).foldl
      (fun acc x => (acc + x) % bn254r) 0)

/-- One full round at index `round`: add-round-key, full S-box, MDS. -/
def fullRound (p : PoseidonParameters) (state : List Nat) (round : Nat) : List Nat :=
  applyMds p (applySboxFull p (applyArk p round state))

/-- One partial round at index `round`: add-round-key, partial S-box, MDS. -/
def partialRound (p : PoseidonParameters) (state : List Nat) (round : Nat) : List Nat :=
  applyMds p (applySboxPartial p (applyArk p round state))

/-- `PoseidonHasher::hash` of `hash/poseidon.rs`: check the input count,
push the domain tag and the inputs into the state, run
`full_rounds/2` full rounds, `partial_rounds` partial rounds and a final
`full_rounds/2` full rounds, output `state[0]`, and clear the state.
Returns the digest together with the post-call hasher. -/
def hash (h : Poseidon) (inputs : List Nat) :
    Except PoseidonError (Nat × Poseidon) :=
  if inputs.length ≠ h.params.width - 1 then
    .error .InvalidNumberOfInputs
  else
    let state0 := h.state ++ h.domain_tag :: inputs
    let allRounds := h.params.full_rounds + h.params.partial_rounds
    let halfRounds := h.params.full_rounds / 2
    let state1 := (List.range halfRounds).foldl (fullRound h.params) state0
    let state2 := ((List.range allRounds).drop halfRounds |>.take h.params.partial_rounds).foldl
      (partialRound h.params) state1
    let state3 := ((List.range allRounds).drop (halfRounds + h.params.partial_rounds)).foldl
      (fullRound h.params) state2
    .ok (state3.headD 0, { h with state := [] })

/-- `validate_bytes_length` of `hash/poseidon.rs`. -/
def validateBytesLength (input : List Nat) : Except PoseidonError Unit :=
  if input.isEmpty then .error .EmptyInput
  else if input.length > modulusBytesLen then .error .InvalidInputLength
  else .ok ()

/-- `bytes_to_prime_field_element` of `hash/poseidon.rs`: require exactly
the modulus byte-length, interpret little-endian **with mod-order
reduction**, then check the (already reduced) element against the modulus.
The final check is kept exactly as in the source even though the reduction
makes it unreachable. -/
def bytesToPrimeFieldElement (input : List Nat) : Except PoseidonError Nat :=
  if input.length ≠ modulusBytesLen then .error .InvalidInputLength
  else
    let element := frFromLeBytesModOrder input
    if element ≥ bn254r then .error .InputLargerThanModulus
    else .ok element

/-- `PoseidonBytesHasher::hash_bytes_be` of `hash/poseidon.rs`: validate
each big-endian byte slice, reverse it, convert it to a field element,
hash, and re-encode the digest big-endian. -/
def hashBytesBe (h : Poseidon) (inputs : List (List Nat)) :
    Except PoseidonError (HashBytes × Poseidon) := do
  let elems ← inputs.mapM (fun input => do
    let _ ← validateBytesLength input
    bytesToPrimeFieldElement input.reverse)
  let (digest, h') ← hash h elems
  pure (natToBytesBe digest, h')

end Poseidon

/-- `MAX_X5_LEN` of `hash/poseidon.rs`. -/
def MAX_X5_LEN : Nat := 13

/-- Modelled from the spec: the file `hash/parameters.rs`
(`get_poseidon_parameters`) is absent from the source tree.  The spec
fixes only the shape of the lookup: "Parameters are selected from a
lookup table by `width ∈ [2,13]`; widths outside this range fail", with
`alpha = 5`, `full_rounds` full rounds and `partial_rounds` partial
rounds, an `ark` vector of `(full_rounds + partial_rounds) * width` round
constants and a `width × width` MDS matrix.  The concrete constant values
are not recorded in the spec; this model fills the tables with an
explicit placeholder sequence of field elements.  Every theorem below
that depends on concrete table values (rather than on the table's shape)
notes this. -/
def getPoseidonParameters (width : Nat) : Except PoseidonError PoseidonParameters :=
  if width < 2 ∨ width > MAX_X5_LEN then .error .InvalidWidthCircom
  else
    .ok {
      ark := (List.range ((8 + 56) * width)).map
        (fun i => (i * i * 7919 + i * width + 1) % bn254r)
      mds := (List.range width).map (fun i =>
        (List.range width).map (fun j => (i * 131 + j * 17 + 3) % bn254r))
      full_rounds := 8
      partial_rounds := 56
      width := width
      alpha := 5
    }

/-- `Poseidon::with_domain_tag_circom` of `hash/poseidon.rs`:
`width = nr_inputs + 1`, reject widths above `MAX_X5_LEN`, look the
parameters up, and start with an empty state. -/
def withDomainTagCircom (nrInputs : Nat) (domainTag : Nat) :
    Except PoseidonError Poseidon := do
  let width := nrInputs + 1
  if width > MAX_X5_LEN then
    .error .InvalidWidthCircom
  else
    let params ← getPoseidonParameters width
    pure { params := params, domain_tag := domainTag, state := [] }

/-- `Poseidon::new_circom` of `hash/poseidon.rs`: the Circom constructor
with domain tag `0`. -/
def newCircom (nrInputs : Nat) : Except PoseidonError Poseidon :=
  withDomainTagCircom nrInputs 0

/-- The error enumeration `MerkleTreeError` of `poll/state.rs`. -/
inductive MerkleTreeError where
  | TreeAlreadyFull : MerkleTreeError
  | TreeAlreadyMerged : MerkleTreeError
  | HashFailed : MerkleTreeError
  | MergeFailed : MerkleTreeError
  deriving DecidableEq, Repr

/-- `From<MerkleTreeError> for u8` of `poll/state.rs`. -/
def MerkleTreeError.toU8 : MerkleTreeError → Nat
  | .TreeAlreadyFull => 1
  | .TreeAlreadyMerged => 2
  | .HashFailed => 3
  | .MergeFailed => 4

/-- `AmortizedIncrementalMerkleTree::hash` of `poll/state.rs`: the Poseidon
hash with Circom domain tag, over big-endian-decoded digests, with the
digest re-encoded big-endian. -/
def treeHash (inputs : List HashBytes) : Except PoseidonError HashBytes := do
  let hasher ← newCircom inputs.length
  let frInputs := inputs.map frFromBeBytesModOrder
  let (result, _) ← Poseidon.hash hasher frInputs
  pure (natToBytesBe result)

/-- Modelled from the spec: the file `poll/zeroes.rs` (declared in
`poll/mod.rs`; it defines `get_merkle_zeroes` and `EMPTY_BALLOT_ROOTS`)
is absent from the source tree.  Per the spec's zero-table contract,
`Z[0]` is the arity-specific zero leaf and
`Z[d] = H(Z[d-1], …, Z[d-1])` (`arity` copies); the spec's testable
property `H(0,0) = Z[1]` for arity 2 pins the zero leaf to the zero
digest, which this model uses for every arity.  Hash failures cannot
occur for the tabulated arities; they fall back to the zero digest so
the table stays total, mirroring a pre-computed constant table. -/
def merkleZero (arity : Nat) : Nat → HashBytes
  | 0 => zeroBytes
  | d + 1 => (treeHash (List.replicate arity (merkleZero arity d))).toOption.getD zeroBytes

/-- Modelled from the spec: `EMPTY_BALLOT_ROOTS[d]` of the absent
`poll/zeroes.rs` is "a pre-tabulated constant: the root of an all-zero
binary tree of depth `d` hashed under Poseidon". -/
def EMPTY_BALLOT_ROOTS : Nat → HashBytes
  | 0 => zeroBytes
  | d + 1 => (treeHash [EMPTY_BALLOT_ROOTS d, EMPTY_BALLOT_ROOTS d]).toOption.getD zeroBytes

/-- The accumulator `PollStateTree` of `poll/state.rs`.  `hashes` keeps
the source's `Vec` order (pushes and truncations act on the tail). -/
structure PollStateTree where
  depth : Nat
  full_depth : Nat
  arity : Nat
  count : Nat
  hashes : List (Nat × HashBytes)
  root : Option HashBytes
  deriving DecidableEq, Repr

namespace PollStateTree

/-- `PollStateTree::new` of `poll/state.rs`. -/
def new (arity full_depth : Nat) (zero_hash : Option (Nat × HashBytes)) : PollStateTree :=
  match zero_hash with
  | some h =>
    { arity := arity, full_depth := full_depth, depth := 0, count := 0
      hashes := [h], root := none }
  | none =>
    { arity := arity, full_depth := full_depth, depth := 0, count := 0
      hashes := [], root := none }

/-- The compaction loop of `insert`, acting on the **reversed** `hashes`
list (the `Vec`'s tail is the list's head, so the "last `arity` entries"
are `rhs.take arity`).  While the trailing `arity` entries share a depth
`d`, they are replaced by their Poseidon digest at depth `d + 1` and the
tree depth is raised to `d + 1` when that is larger.  The source loop is
a `loop`; `fuel` bounds the recursion and is chosen large enough for
every terminating execution (for `arity ≥ 2` each pass shortens the
list), while exhaustion — which models the source's divergence for
degenerate arities — reports `MergeFailed`. -/
def insertLoop (arity : Nat) :
    Nat → List (Nat × HashBytes) → Nat →
    Except MerkleTreeError (List (Nat × HashBytes) × Nat)
  | 0, _, _ => .error .MergeFailed
  | fuel + 1, rhs, depth =>
    if rhs.length < arity then .ok (rhs, depth)
    else
      match (rhs.take arity).head? with
      | none => .error .MergeFailed
      | some (d, _) =>
        if (rhs.take arity).all (fun e => e.1 = d) then
          match treeHash ((rhs.take arity).reverse.map Prod.snd) with
          | .error _ => .error .HashFailed
          | .ok digest =>
            insertLoop arity fuel ((d + 1, digest) :: rhs.drop arity)
              (if depth < d + 1 then d + 1 else depth)
        else .ok (rhs, depth)

/-- `insert` of `poll/state.rs`: reject when `root` is set, push the new
leaf at depth 0, run the compaction loop, and promote a sole remaining
entry at `full_depth` to the root. -/
def insert (t : PollStateTree) (leaf : HashBytes) :
    Except MerkleTreeError PollStateTree :=
  if t.root ≠ none then .error .TreeAlreadyFull
  else
    match insertLoop t.arity (((0, leaf) :: t.hashes.reverse).length + 1)
        ((0, leaf) :: t.hashes.reverse) t.depth with
    | .error e => .error e
    | .ok (rhs, depth) =>
      if rhs.length = 1 ∧ (rhs.headD (0, zeroBytes)).1 = t.full_depth then
        .ok { t with count := t.count + 1, depth := depth, hashes := []
                     root := some (rhs.headD (0, zeroBytes)).2 }
      else
        .ok { t with count := t.count + 1, depth := depth, hashes := rhs.reverse }

/-- The merge loop of `merge`, acting on the **reversed** `hashes` list.
Each pass takes the trailing run of same-depth entries, right-pads it
with the tabulated zero of that depth up to `arity` children, hashes,
and pushes the digest at the next depth; it stops on an empty list, or
on a sole entry once `to_depth` is `false` or the entry sits at
`full_depth`.  As with `insertLoop`, `fuel` models the source's `loop`
and exhaustion reports `MergeFailed`. -/
def mergeLoop (arity full_depth : Nat) (toDepth : Bool) :
    Nat → List (Nat × HashBytes) →
    Except MerkleTreeError (List (Nat × HashBytes))
  | 0, _ => .error .MergeFailed
  | fuel + 1, rhs =>
    match rhs with
    | [] => .ok []
    | (d, _) :: _ =>
      if rhs.length = 1 ∧ (¬toDepth ∨ d = full_depth) then .ok rhs
      else
        let run := rhs.takeWhile (fun e => e.1 = d)
        let size := run.length
        let subtree0 := run.reverse.map Prod.snd
        let zero := merkleZero arity d
        let subtree :=
          if size ≤ arity then subtree0 ++ List.replicate (arity - size) zero
          else subtree0
        match treeHash subtree with
        | .error _ => .error .HashFailed
        | .ok digest => mergeLoop arity full_depth toDepth fuel ((d + 1, digest) :: rhs.drop size)

/-- `merge` of `poll/state.rs`: reject when `root` is already set, run the
merge loop, and promote a sole remaining entry to the root. -/
def merge (t : PollStateTree) (toDepth : Bool) :
    Except MerkleTreeError PollStateTree :=
  if t.root ≠ none then .error .TreeAlreadyMerged
  else
    match mergeLoop t.arity t.full_depth toDepth
        (t.hashes.length + t.full_depth + 2) t.hashes.reverse with
    | .error e => .error e
    | .ok rhs =>
      if rhs.length = 1 then
        .ok { t with hashes := [], root := some (rhs.headD (0, zeroBytes)).2 }
      else
        .ok { t with hashes := rhs.reverse }

end PollStateTree

/-- `PublicKey` of `poll/keys.rs`: 32-byte big-endian x and y coordinates. -/
structure PublicKey where
  x : HashBytes
  y : HashBytes
  deriving DecidableEq, Repr

/-- `VerifyKey` of `poll/keys.rs`: a serialized Groth16 verifying key. -/
structure VerifyKey where
  alpha_g1 : List Nat
  beta_g2 : List Nat
  gamma_g2 : List Nat
  delta_g2 : List Nat
  gamma_abc_g1 : List (List Nat)
  deriving DecidableEq, Repr

/-- `VerifyingKeys` of `poll/coordinator.rs`. -/
structure VerifyingKeys where
  process : VerifyKey
  tally : VerifyKey
  deriving DecidableEq, Repr

/-- `Coordinator` of `poll/coordinator.rs`. -/
structure Coordinator where
  public_key : PublicKey
  verify_key : VerifyingKeys
  last_poll : Option Nat
  deriving DecidableEq, Repr

/-- `Commitment` of `poll/coordinator.rs`.  `poll/state.rs` constructs it
with only the `process` and `tally` pairs (a revision mismatch in the
snapshot); the two expected counters are initialised to `0` here. -/
structure Commitment where
  process : Nat × HashBytes
  tally : Nat × HashBytes
  expected_process : Nat
  expected_tally : Nat
  deriving DecidableEq, Repr

/-- `PollConfiguration` of `poll/config.rs`. -/
structure PollConfiguration where
  signup_period : Nat
  voting_period : Nat
  max_registrations : Nat
  max_interactions : Nat
  process_subtree_depth : Nat
  vote_option_tree_depth : Nat
  vote_options : List Nat
  deriving DecidableEq, Repr

/-- `PollState` of `poll/state.rs`. -/
structure PollState where
  registrations : PollStateTree
  interactions : PollStateTree
  commitment : Commitment
  outcome : Option Nat
  tombstone : Bool
  deriving DecidableEq, Repr

/-- `NewPollState::new` of `poll/state.rs`: an arity-2 registration tree
seeded with the sentinel `(0, get_merkle_zeroes(2)[0])`, an empty arity-5
interaction tree, zero commitments, no outcome, no tombstone. -/
def PollState.new (registration_depth interaction_depth : Nat) : PollState :=
  { registrations := PollStateTree.new 2 registration_depth (some (0, merkleZero 2 0))
    interactions := PollStateTree.new 5 interaction_depth none
    commitment :=
      { process := (0, zeroBytes), tally := (0, zeroBytes)
        expected_process := 0, expected_tally := 0 }
    outcome := none
    tombstone := false }

/-- `Poll` of `poll/poll.rs` (the coordinator account is an opaque id). -/
structure Poll where
  index : Nat
  coordinator : Nat
  created_at : Nat
  state : PollState
  config : PollConfiguration
  deriving DecidableEq, Repr

namespace Poll

/-- `get_voting_period_end` of `poll/provider.rs`. -/
def getVotingPeriodEnd (poll : Poll) : Nat :=
  poll.created_at + poll.config.signup_period + poll.config.voting_period

/-- `is_registration_period` of `poll/provider.rs`; `now` is the current
block height read from the host. -/
def isRegistrationPeriod (poll : Poll) (now : Nat) : Bool :=
  now ≥ poll.created_at ∧ now < poll.created_at + poll.config.signup_period

/-- `is_voting_period` of `poll/provider.rs`. -/
def isVotingPeriod (poll : Poll) (now : Nat) : Bool :=
  let votingPeriodStart := poll.created_at + poll.config.signup_period
  let votingPeriodEnd := votingPeriodStart + poll.config.voting_period
  now ≥ votingPeriodStart ∧ now < votingPeriodEnd

/-- `is_over` of `poll/provider.rs`. -/
def isOver (poll : Poll) (now : Nat) : Bool :=
  now > poll.getVotingPeriodEnd

/-- `get_proof_public_inputs` of `poll/provider.rs`: compute the message
batch size `arity^process_subtree_depth`, align `current_batch_index`
down to the start of the last non-empty batch, and return either the
process-circuit signals with the process verify key (when
`proof_index * batch_size` does not exceed the aligned index) or the
tally verify key with the still-unimplemented tally signals. -/
def getProofPublicInputs (poll : Poll) (proofIndex : Nat)
    (coordinator : Coordinator) (currCommitment newCommitment : HashBytes) :
    VerifyKey × List Nat :=
  let messageBatchSize := poll.state.interactions.arity ^ poll.config.process_subtree_depth
  let currentBatchIndex0 := poll.state.interactions.count
  let currentBatchIndex :=
    if currentBatchIndex0 > 0 then
      let r := poll.state.interactions.count % messageBatchSize
      if r = 0 then currentBatchIndex0 - messageBatchSize
      else currentBatchIndex0 - r
    else currentBatchIndex0
  let indexOffset := proofIndex * messageBatchSize
  if indexOffset ≤ currentBatchIndex then
    let verifyKey := coordinator.verify_key.process
    match newCircom 2 with
    | .error _ => (verifyKey, [])
    | .ok hasher =>
      let coordPubKeyFr :=
        [coordinator.public_key.x, coordinator.public_key.y].map frFromBeBytesModOrder
      match Poseidon.hash hasher coordPubKeyFr with
      | .error _ => (verifyKey, [])
      | .ok (coordPubKeyHash, _) =>
        match poll.state.interactions.root with
        | none => (verifyKey, [])
        | some rootBytes =>
          let interactionRoot := frFromBeBytesModOrder rootBytes
          let newCommitmentFr := frFromBeBytesModOrder newCommitment
          let currCommitmentFr := frFromBeBytesModOrder currCommitment
          let currentBatchIndex := currentBatchIndex - indexOffset
          let endBatchIndex0 := currentBatchIndex + messageBatchSize
          let endBatchIndex :=
            if endBatchIndex0 > poll.state.interactions.count then
              poll.state.interactions.count
            else endBatchIndex0
          (verifyKey,
            [frFromNat (poll.state.registrations.count + 1),
             frFromNat poll.getVotingPeriodEnd,
             interactionRoot,
             frFromNat poll.state.registrations.depth,
             frFromNat endBatchIndex,
             frFromNat currentBatchIndex,
             coordPubKeyHash,
             currCommitmentFr,
             newCommitmentFr])
  else
    (coordinator.verify_key.tally, [])

/-- `merge_registrations` of `poll/provider.rs`: merge the registration
tree with `to_depth = false`, then seed the process commitment with
index `0` and the width-4 Circom Poseidon hash of the registration root,
`EMPTY_BALLOT_ROOTS[1]` and the zero digest. -/
def mergeRegistrations (poll : Poll) : Except MerkleTreeError Poll := do
  let registrations ← poll.state.registrations.merge false
  match registrations.root with
  | none => .error .MergeFailed
  | some root =>
    match newCircom 3 with
    | .error _ => .error .HashFailed
    | .ok hasher =>
      let inputs := [root, EMPTY_BALLOT_ROOTS 1, zeroBytes].map frFromBeBytesModOrder
      match Poseidon.hash hasher inputs with
      | .error _ => .error .HashFailed
      | .ok (result, _) =>
        let commitment := natToBytesBe result
        pure { poll with
          state := { poll.state with
            registrations := registrations
            commitment := { poll.state.commitment with process := (0, commitment) } } }

/-- `merge_interactions` of `poll/provider.rs`. -/
def mergeInteractions (poll : Poll) : Except MerkleTreeError Poll := do
  let interactions ← poll.state.interactions.merge true
  pure { poll with state := { poll.state with interactions := interactions } }

end Poll

/-! The host-adapter revision in `src/pallet/src/lib.rs` carries its own
poll data model and window predicates (timestamps instead of block
heights, `num_participants`/`num_interactions` counters, and a leaf hash
computed with the external `dusk_poseidon` sponge).  It is embedded
separately in the `Host` namespace; the external sponge is passed in as
an opaque function, since no claim depends on its values. -/

namespace Host

/-- `PollStateTree` of `lib.rs`. -/
structure PollStateTree where
  subtree_depth : Nat
  subtree_root : Option HashBytes
  root : Option HashBytes
  deriving DecidableEq, Repr

/-- `PollStateTree::default` of `lib.rs`. -/
def PollStateTree.default : PollStateTree :=
  { subtree_depth := 0, subtree_root := none, root := none }

/-- `PollState` of `lib.rs`. -/
structure PollState where
  num_participants : Nat
  num_interactions : Nat
  registration_tree : PollStateTree
  interaction_tree : PollStateTree
  num_witnessed : Nat
  commitment : Nat × HashBytes
  outcome : Option Nat
  deriving DecidableEq, Repr

/-- `PollState::default` of `lib.rs`. -/
def PollState.default : PollState :=
  { num_participants := 0, num_interactions := 0, num_witnessed := 0
    registration_tree := PollStateTree.default
    interaction_tree := PollStateTree.default
    commitment := (0, zeroBytes), outcome := none }

/-- `PollConfiguration` of `lib.rs`. -/
structure PollConfiguration where
  signup_period : Nat
  voting_period : Nat
  max_participants : Nat
  vote_options : List Nat
  batch_size : Nat
  tree_arity : Nat
  deriving DecidableEq, Repr

/-- `Poll` of `lib.rs` (account ids and the optional metadata hash are
opaque `Nat`s). -/
structure Poll where
  index : Nat
  coordinator : Nat
  created_at : Nat
  metadata : Option Nat
  state : PollState
  config : PollConfiguration
  deriving DecidableEq, Repr

/-- The extrinsic error enumeration `Error<T>` of `lib.rs`. -/
inductive Error where
  | CoordinatorAlreadyRegistered | CoordinatorNotRegistered
  | CoordinatorPollLimitReached | ParticipantRegistrationLimitReached
  | ParticipantInteractionLimitReached | ParticipantAlreadyRegistered
  | PollConfigInvalid | PollRegistrationInProgress | PollRegistrationHasEnded
  | PollVotingInProgress | PollVotingHasEnded | PollDoesNotExist
  | PollDataEmpty | PollMissingOutcome | PollTreesNotMerged
  | PollOutcomeAlreadyCommitted | MalformedPollData | MalformedPublicKey
  | MalformedVerifyKey | MalformedProof
  deriving DecidableEq, Repr

/-- `poll_in_voting_period` of `lib.rs`: true iff the poll exists and
`now` lies in `[start, end)` of its voting window. -/
def pollInVotingPeriod (now : Nat) (poll : Option Poll) : Bool :=
  match poll with
  | some p =>
    let votingPeriodStart := p.created_at + p.config.signup_period
    let votingPeriodEnd := votingPeriodStart + p.config.voting_period
    now ≥ votingPeriodStart ∧ now < votingPeriodEnd
  | none => false

/-- `poll_in_signup_period` of `lib.rs`: true iff `now` precedes the end
of the signup window. -/
def pollInSignupPeriod (now : Nat) (poll : Poll) : Bool :=
  now < poll.created_at + poll.config.signup_period

/-- `poll_is_over` of `lib.rs`.  The source's doc comment reads "Returns
true iff poll has ended", but the body compares `now <
voting_period_end` — the transcription keeps the body exactly. -/
def pollIsOver (now : Nat) (poll : Poll) : Bool :=
  let votingPeriodStart := poll.created_at + poll.config.signup_period
  let votingPeriodEnd := votingPeriodStart + poll.config.voting_period
  now < votingPeriodEnd

/-- `register_as_participant` of `lib.rs` after origin authentication:
reject coordinator accounts and duplicate registrations, require the
poll to exist, require the signup window (`poll_in_signup_period`), and
enforce the registration cap; then bump the participant count and append
the sponge hash of `(x, y, 1, timestamp)` to the poll's registration
hashes.  `sponge` is the external `dusk_poseidon::sponge::hash`
composed with `to_bytes`; `participatingIn` is the signer's entry of
`PollsParticipatingIn`. -/
def registerAsParticipant (sponge : List Nat → HashBytes)
    (senderIsCoordinator : Bool) (participatingIn : List Nat)
    (pollLookup : Option Poll) (now : Nat) (pollId : Nat)
    (publicKeyX publicKeyY : Nat) :
    Except Error (Poll × HashBytes) := do
  if senderIsCoordinator then throw .CoordinatorNotRegistered
  if pollId ∈ participatingIn then throw .ParticipantAlreadyRegistered
  match pollLookup with
  | none => throw .PollDoesNotExist
  | some poll =>
    if ¬pollInSignupPeriod now poll then throw .PollRegistrationHasEnded
    if ¬(poll.state.num_participants < poll.config.max_participants) then
      throw .ParticipantRegistrationLimitReached
    let count := poll.state.num_participants + 1
    let poll := { poll with state := { poll.state with num_participants := count } }
    let leafHash := sponge [publicKeyX, publicKeyY, 1, now]
    pure (poll, leafHash)

/-- `interact_with_poll` of `lib.rs` after origin authentication: require
the poll to exist, reject when `poll_is_over` holds (error
`PollVotingHasEnded`), enforce the interaction cap, hash the 16 data
words together with the ephemeral key through the external sponge,
append the leaf (to the registration-hash store, as the source does),
and bump the interaction count. -/
def interactWithPoll (sponge : List Nat → HashBytes)
    (pollLookup : Option Poll) (now : Nat) (maxPollInteractions : Nat)
    (publicKeyX publicKeyY : Nat) (data : List Nat) :
    Except Error (Poll × HashBytes) := do
  match pollLookup with
  | none => throw .PollDoesNotExist
  | some poll =>
    if pollIsOver now poll then throw .PollVotingHasEnded
    if ¬(poll.state.num_interactions < maxPollInteractions) then
      throw .ParticipantInteractionLimitReached
    let leafData := data ++ [publicKeyX, publicKeyY]
    let leafHash := sponge leafData
    let poll := { poll with state :=
      { poll.state with num_interactions := poll.state.num_interactions + 1 } }
    pure (poll, leafHash)

end Host

/-! ## Shared helper lemmas -/

/-- A hash call on a hasher with empty state and the right number of
inputs succeeds, and the returned hasher again has empty state (the
sponge is cleared), so the digest is a function of the parameters, the
domain tag and the inputs alone. -/
theorem Poseidon.hash_ok (p : PoseidonParameters) (tag : Nat) (inputs : List Nat)
    (hlen : inputs.length = p.width - 1) :
    ∃ r, Poseidon.hash ⟨p, tag, []⟩ inputs = .ok (r, ⟨p, tag, []⟩) := by
  unfold Poseidon.hash
  rw [if_neg (by simp [hlen])]
  exact ⟨_, rfl⟩

/-- `ceilDiv a b = ⌈a / b⌉` over `Nat`, as used by the spec's
`expected_process` and `expected_tally` formulas. -/
def ceilDiv (a b : Nat) : Nat := (a + b - 1) / b

/-! ## Claim C9 -/

/-- C9: for every `PollStateTree` whose root is unset and whose `hashes`
list is empty, `merge(to_depth)` returns `Ok` for both values of
`to_depth`, raises no error, and leaves the tree unchanged with `root`
still `None`. -/
theorem C9_merge_of_empty_tree_is_noop (t : PollStateTree) (toDepth : Bool)
    (hroot : t.root = none) (hhashes : t.hashes = []) :
    t.merge toDepth = .ok t := by
  obtain ⟨d, fd, a, c, hs, r⟩ := t
  simp only at hroot hhashes
  subst hroot hhashes
  simp [PollStateTree.merge, PollStateTree.mergeLoop]

/-- Witness for C9: a fresh arity-5 interaction tree merges to itself in
both modes. -/
theorem C9_witness :
    (PollStateTree.new 5 2 none).merge true = .ok (PollStateTree.new 5 2 none) ∧
    (PollStateTree.new 5 2 none).merge false = .ok (PollStateTree.new 5 2 none) :=
  ⟨C9_merge_of_empty_tree_is_noop _ true rfl rfl,
   C9_merge_of_empty_tree_is_noop _ false rfl rfl⟩

/-! ## Claim C10 -/

/-- C10: a successful Poseidon hash call clears the sponge's internal
state before returning, so for every parameter set and every two
successive hash calls on the same hasher instance with equal inputs of
length `width - 1`, both calls succeed and return equal outputs. -/
theorem C10_hash_clears_state_and_is_repeatable
    (p : PoseidonParameters) (tag : Nat) (inputs : List Nat)
    (_hwidth : 1 ≤ p.width) (hlen : inputs.length = p.width - 1) :
    ∃ r h', Poseidon.hash ⟨p, tag, []⟩ inputs = .ok (r, h') ∧
      h'.state = [] ∧ Poseidon.hash h' inputs = .ok (r, h') := by
  obtain ⟨r, hr⟩ := Poseidon.hash_ok p tag inputs hlen
  exact ⟨r, ⟨p, tag, []⟩, hr, rfl, hr⟩

/-- Parameter record for width 3 taken from the (spec-modelled) lookup
table; used to instantiate hypotheses of theorems at a concrete
parameter set. -/
def width3Params : PoseidonParameters :=
  (getPoseidonParameters 3).toOption.getD ⟨[], [], 0, 0, 0, 0⟩

/-- Witness for C10 at the width-3 table entry and inputs `[1, 2]`. -/
theorem C10_witness :
    ∃ r h', Poseidon.hash ⟨width3Params, 0, []⟩ [1, 2] = .ok (r, h') ∧
      h'.state = [] ∧ Poseidon.hash h' [1, 2] = .ok (r, h') :=
  C10_hash_clears_state_and_is_repeatable width3Params 0 [1, 2]
    (by decide) (by decide)

/-! ## Claim C5 -/

/-- C5 (refuted; the code contradicts its own "Ensure the element is less
than the modulus" comment): `bytes_to_prime_field_element` reduces the
byte value modulo `r` *before* comparing against the modulus, so the
`InputLargerThanModulus` check is unreachable; in particular
`hash_bytes_be` succeeds on a 32-byte big-endian input whose value is
exactly the modulus `r`, instead of raising `InputLargerThanModulus`.
The concrete evaluation depends on the spec-modelled parameter table
only through the success of the hash, not through its value. -/
theorem C5_input_larger_than_modulus_is_unreachable :
    (∀ input : List Nat,
      Poseidon.bytesToPrimeFieldElement input ≠ .error .InputLargerThanModulus) ∧
    (Except.isOk ((newCircom 2).bind (fun h =>
        Poseidon.hashBytesBe h [natToBytesBe bn254r, natToBytesBe bn254r])) = true) := by
  constructor
  · intro input
    unfold Poseidon.bytesToPrimeFieldElement
    by_cases hlen : input.length ≠ modulusBytesLen
    · simp [hlen]
    · have hlt : frFromLeBytesModOrder input < bn254r :=
        Nat.mod_lt _ (by norm_num [bn254r])
      simp [hlen, frFromLeBytesModOrder] at hlt ⊢
      omega
  · decide

/-! ## Claim C8 -/

/-- C8 (amended): `PollState::new` seeds the registration tree's `hashes`
with the single sentinel `(0, Z_arity2[0])` — the arity-2 zero **leaf**
(the zero digest), not `Poseidon(0,0)` — and leaves the interaction
tree's `hashes` empty, with both counts `0` and both roots unset. -/
theorem C8_initial_state (registrationDepth interactionDepth : Nat) :
    (PollState.new registrationDepth interactionDepth).registrations.hashes
        = [(0, zeroBytes)] ∧
    (PollState.new registrationDepth interactionDepth).interactions.hashes = [] ∧
    (PollState.new registrationDepth interactionDepth).registrations.count = 0 ∧
    (PollState.new registrationDepth interactionDepth).interactions.count = 0 ∧
    (PollState.new registrationDepth interactionDepth).registrations.root = none ∧
    (PollState.new registrationDepth interactionDepth).interactions.root = none :=
  ⟨rfl, rfl, rfl, rfl, rfl, rfl⟩

/-- Counterexample for C8 as stated: the sentinel leaf is *not* the
Poseidon hash of two zero field elements — that hash (evaluated under
the spec-modelled parameter table) differs from the stored zero digest. -/
theorem C8_counterexample :
    (treeHash [zeroBytes, zeroBytes]).isOk = true ∧
    (PollState.new 10 2).registrations.hashes
      ≠ [(0, (treeHash [zeroBytes, zeroBytes]).toOption.getD (natToBytesBe 1))] := by
  constructor <;> decide

/-! ## Claim C6 -/

/-- A concrete poll for exercising the host adapter's voting-window
guard: created at block 1 with a 12-block signup period and a 12-block
voting period, so the voting window ends at block 25. -/
def hostPollC6 : Host.Poll :=
  { index := 0, coordinator := 0, created_at := 1, metadata := none
    state := Host.PollState.default
    config := { signup_period := 12, voting_period := 12, max_participants := 3
                vote_options := [0, 1], batch_size := 1, tree_arity := 2 } }

/-- C6 (refuted; `poll_is_over` contradicts its own doc comment "Returns
true iff poll has ended" by computing `now < voting_period_end`):
`interact_with_poll` **accepts** an interaction at block 26, strictly
after the end (25) of the voting window, where the claim requires
`PollVotingHasEnded`; and it **rejects** with `PollVotingHasEnded` at
block 20, inside the voting window `(13, 25]`, where the claim requires
acceptance. -/
theorem C6_voting_window_guard_is_inverted :
    (Except.isOk (Host.interactWithPoll (fun _ => zeroBytes) (some hostPollC6)
        26 100 0 0 []) = true) ∧
    (Host.interactWithPoll (fun _ => zeroBytes) (some hostPollC6)
        20 100 0 0 [] = .error .PollVotingHasEnded) ∧
    26 > hostPollC6.created_at + hostPollC6.config.signup_period
        + hostPollC6.config.voting_period ∧
    ¬ (20 > hostPollC6.created_at + hostPollC6.config.signup_period
        + hostPollC6.config.voting_period) :=
  ⟨rfl, rfl, by decide, by decide⟩

/-! ## Claim C7 -/

/-- C7 (amended): for a poll with registration capacity remaining and an
unregistered non-coordinator signer, `register_as_participant` is
accepted exactly when `now < created_at + signup_period` — the guard
`poll_in_signup_period` imposes no lower bound, so the window is
`[0, created_at + signup_period - 1]`, not `[created_at + 1,
created_at + signup_period]` — and from `created_at + signup_period`
onwards it fails with `PollRegistrationHasEnded`. -/
theorem C7_registration_window (sponge : List Nat → HashBytes)
    (participatingIn : List Nat) (poll : Host.Poll) (now pollId x y : Nat)
    (hnotin : pollId ∉ participatingIn)
    (hcap : poll.state.num_participants < poll.config.max_participants) :
    (now < poll.created_at + poll.config.signup_period →
      Except.isOk (Host.registerAsParticipant sponge false participatingIn
        (some poll) now pollId x y) = true) ∧
    (poll.created_at + poll.config.signup_period ≤ now →
      Host.registerAsParticipant sponge false participatingIn
        (some poll) now pollId x y = .error .PollRegistrationHasEnded) := by
  constructor
  · intro hwin
    simp [Host.registerAsParticipant, Host.pollInSignupPeriod, hnotin, hcap, hwin,
      Except.isOk, Except.toBool, Pure.pure, Except.pure, Bind.bind, Except.bind]
  · intro hwin
    simp [Host.registerAsParticipant, Host.pollInSignupPeriod, hnotin, hcap,
      Nat.not_lt.mpr hwin, Pure.pure, Except.pure, Bind.bind, Except.bind,
      throw, throwThe, MonadExceptOf.throw]

/-- A concrete poll for the registration-window counterexample: created
at block 1 with a 12-block signup period. -/
def hostPollC7 : Host.Poll :=
  { index := 0, coordinator := 0, created_at := 1, metadata := none
    state := Host.PollState.default
    config := { signup_period := 12, voting_period := 12, max_participants := 3
                vote_options := [0, 1], batch_size := 1, tree_arity := 2 } }

/-- Counterexample for C7 as stated: block 13 lies inside the claimed
window `[created_at + 1, created_at + signup_period] = [2, 13]`, yet
registration fails with `PollRegistrationHasEnded`. -/
theorem C7_counterexample :
    Host.registerAsParticipant (fun _ => zeroBytes) false [] (some hostPollC7)
      13 0 0 0 = .error .PollRegistrationHasEnded ∧
    hostPollC7.created_at + 1 ≤ 13 ∧
    13 ≤ hostPollC7.created_at + hostPollC7.config.signup_period ∧
    hostPollC7.state.num_participants < hostPollC7.config.max_participants :=
  ⟨rfl, by decide, by decide, by decide⟩

/-- Witness for C7 at block 5 (inside the actual window) and block 13
(outside it). -/
theorem C7_witness :
    ((5 : Nat) < hostPollC7.created_at + hostPollC7.config.signup_period ∧
      Except.isOk (Host.registerAsParticipant (fun _ => zeroBytes) false []
        (some hostPollC7) 5 0 0 0) = true) ∧
    (hostPollC7.created_at + hostPollC7.config.signup_period ≤ (13 : Nat) ∧
      Host.registerAsParticipant (fun _ => zeroBytes) false []
        (some hostPollC7) 13 0 0 0 = .error .PollRegistrationHasEnded) :=
  ⟨⟨by decide,
    (C7_registration_window (fun _ => zeroBytes) [] hostPollC7 5 0 0 0
      (by decide) (by decide)).1 (by decide)⟩,
   ⟨by decide,
    (C7_registration_window (fun _ => zeroBytes) [] hostPollC7 13 0 0 0
      (by decide) (by decide)).2 (by decide)⟩⟩


/-! ## Claim C2 -/

/-- `ceilDiv` at a positive multiple of `b`. -/
theorem ceilDiv_mul (q b : Nat) (hb : 1 ≤ b) : ceilDiv (b * q) b = q := by
  rcases q with _ | q
  · show (b * 0 + b - 1) / b = 0
    rw [Nat.mul_zero, Nat.zero_add]
    exact Nat.div_eq_of_lt (by omega)
  · show (b * (q + 1) + b - 1) / b = q + 1
    have h2 : b * (q + 1) + b - 1 = b * (q + 1) + (b - 1) := by omega
    rw [h2, Nat.mul_add_div (by omega), Nat.div_eq_of_lt (by omega)]

/-- `ceilDiv` away from a multiple of `b`. -/
theorem ceilDiv_not_dvd (q r b : Nat) (hb : 1 ≤ b) (hr : 1 ≤ r) (hrb : r < b) :
    ceilDiv (b * q + r) b = q + 1 := by
  show (b * q + r + b - 1) / b = q + 1
  have h : b * q + r + b - 1 = b * q + b + (r - 1) := by omega
  rw [h, ← Nat.mul_succ, Nat.mul_add_div (by omega), Nat.div_eq_of_lt (by omega)]

/-- The inline alignment of `current_batch_index` in
`get_proof_public_inputs` equals the start of the last non-empty batch,
`(⌈count / b⌉ - 1) * b`. -/
theorem align_eq_ceil (count b : Nat) (hb : 1 ≤ b) :
    (if count > 0 then
      (if count % b = 0 then count - b else count - count % b)
     else count) = (ceilDiv count b - 1) * b := by
  have key : ∀ q r, r < b →
      (if b * q + r > 0 then
        (if (b * q + r) % b = 0 then b * q + r - b else b * q + r - (b * q + r) % b)
       else b * q + r) = (ceilDiv (b * q + r) b - 1) * b := by
    intro q r hrb
    have hmod : (b * q + r) % b = r := by
      rw [Nat.add_comm, Nat.add_mul_mod_self_left, Nat.mod_eq_of_lt hrb]
    rcases Nat.eq_zero_or_pos r with hr0 | hr0
    · subst hr0
      rcases Nat.eq_zero_or_pos q with hq0 | hq0
      · subst hq0
        have h0 : ceilDiv (b * 0 + 0) b = 0 := by
          show (b * 0 + 0 + b - 1) / b = 0
          exact Nat.div_eq_of_lt (by omega)
        rw [h0]
        simp
      · have hpos : b * q + 0 > 0 := by
          have := Nat.mul_pos (by omega : 0 < b) hq0
          omega
        rw [if_pos hpos, if_pos (by rw [hmod]), Nat.add_zero, ceilDiv_mul q b hb,
          Nat.sub_mul, Nat.one_mul, Nat.mul_comm b q]
    · have hpos : b * q + r > 0 := by omega
      rw [if_pos hpos, if_neg (by omega), hmod, Nat.add_sub_cancel,
        ceilDiv_not_dvd q r b hb hr0 hrb, Nat.add_sub_cancel, Nat.mul_comm b q]
  have hdm := Nat.div_add_mod count b
  have hkey := key (count / b) (count % b) (Nat.mod_lt _ (by omega))
  rw [hdm] at hkey
  exact hkey

/-- The verify-key selection of `get_proof_public_inputs` is decided by
the branch condition `index_offset ≤ current_batch_index` alone: every
exit of the process branch carries the process key, and the tally branch
carries the tally key. -/
theorem getProofPublicInputs_fst (poll : Poll) (proofIndex : Nat)
    (coordinator : Coordinator) (cc nc : HashBytes) :
    (poll.getProofPublicInputs proofIndex coordinator cc nc).1 =
      (if proofIndex * (poll.state.interactions.arity ^ poll.config.process_subtree_depth) ≤
          (if poll.state.interactions.count > 0 then
            (if poll.state.interactions.count %
                (poll.state.interactions.arity ^ poll.config.process_subtree_depth) = 0 then
              poll.state.interactions.count -
                poll.state.interactions.arity ^ poll.config.process_subtree_depth
             else poll.state.interactions.count -
                poll.state.interactions.count %
                  (poll.state.interactions.arity ^ poll.config.process_subtree_depth))
           else poll.state.interactions.count)
       then coordinator.verify_key.process else coordinator.verify_key.tally) := by
  unfold Poll.getProofPublicInputs
  by_cases hcond :
      proofIndex * (poll.state.interactions.arity ^ poll.config.process_subtree_depth) ≤
        (if poll.state.interactions.count > 0 then
          (if poll.state.interactions.count %
              (poll.state.interactions.arity ^ poll.config.process_subtree_depth) = 0 then
            poll.state.interactions.count -
              poll.state.interactions.arity ^ poll.config.process_subtree_depth
           else poll.state.interactions.count -
              poll.state.interactions.count %
                (poll.state.interactions.arity ^ poll.config.process_subtree_depth))
         else poll.state.interactions.count)
  · rw [if_pos hcond, if_pos hcond]
    have hcirc : newCircom 2 = .ok ⟨width3Params, 0, []⟩ := rfl
    obtain ⟨r, hr⟩ := Poseidon.hash_ok width3Params 0
      (List.map frFromBeBytesModOrder [coordinator.public_key.x, coordinator.public_key.y])
      (by rfl)
    simp only [hcirc, hr]
    rcases poll.state.interactions.root with _ | rootBytes <;> rfl
  · rw [if_neg hcond, if_neg hcond]

/-- C2 (amended): `get_proof_public_inputs` selects the process verify
key iff `proof_index * batch_size` does not exceed the aligned start of
the last non-empty batch.  For `count_interactions ≥ 1` this is
equivalent to the claimed `proof_index < expected_process` with
`expected_process = ⌈count_interactions / batch_size⌉`; but for
`count_interactions = 0` the process key is selected exactly when
`proof_index = 0`, even though `expected_process = 0`, so the claimed
equivalence fails there. -/
theorem C2_verify_key_selection (poll : Poll) (proofIndex : Nat)
    (coordinator : Coordinator) (cc nc : HashBytes)
    (ha : 1 ≤ poll.state.interactions.arity) :
    (poll.getProofPublicInputs proofIndex coordinator cc nc).1 =
      if 0 < poll.state.interactions.count then
        (if proofIndex < ceilDiv poll.state.interactions.count
            (poll.state.interactions.arity ^ poll.config.process_subtree_depth)
         then coordinator.verify_key.process else coordinator.verify_key.tally)
      else
        (if proofIndex = 0 then coordinator.verify_key.process
         else coordinator.verify_key.tally) := by
  rw [getProofPublicInputs_fst]
  have hb : 1 ≤ poll.state.interactions.arity ^ poll.config.process_subtree_depth :=
    Nat.one_le_pow _ _ ha
  rw [align_eq_ceil poll.state.interactions.count
    (poll.state.interactions.arity ^ poll.config.process_subtree_depth) hb]
  set b := poll.state.interactions.arity ^ poll.config.process_subtree_depth with hbdef
  set count := poll.state.interactions.count with hcdef
  rcases Nat.eq_zero_or_pos count with hc | hc
  · rw [hc, if_neg (by omega : ¬ (0:Nat) < 0)]
    have hceil0 : ceilDiv 0 b = 0 := by
      show (0 + b - 1) / b = 0
      exact Nat.div_eq_of_lt (by omega)
    have hcond0 : (proofIndex * b ≤ (ceilDiv 0 b - 1) * b) ↔ proofIndex = 0 := by
      rw [hceil0]
      simp only [Nat.zero_sub, Nat.zero_mul, Nat.le_zero, Nat.mul_eq_zero]
      omega
    simp only [hcond0]
  · rw [if_pos hc]
    have hceil : 1 ≤ ceilDiv count b := by
      show 1 ≤ (count + b - 1) / b
      exact (Nat.one_le_div_iff (by omega)).mpr (by omega)
    have hiff : (proofIndex * b ≤ (ceilDiv count b - 1) * b) ↔
        proofIndex < ceilDiv count b := by
      constructor
      · intro h
        have := Nat.le_of_mul_le_mul_right h (by omega : 0 < b)
        omega
      · intro h
        exact Nat.mul_le_mul (by omega : proofIndex ≤ ceilDiv count b - 1) (Nat.le_refl b)
    simp only [hiff]

/-- A process verify key distinguishable from the tally key, for
observing which key `get_proof_public_inputs` selects. -/
def coordC2 : Coordinator :=
  { public_key := { x := zeroBytes, y := zeroBytes }
    verify_key :=
      { process := { alpha_g1 := [1], beta_g2 := [], gamma_g2 := [], delta_g2 := []
                     gamma_abc_g1 := [] }
        tally := { alpha_g1 := [2], beta_g2 := [], gamma_g2 := [], delta_g2 := []
                   gamma_abc_g1 := [] } }
    last_poll := none }

/-- A freshly created poll with zero interactions (`batch_size = 5`). -/
def pollC2 : Poll :=
  { index := 0, coordinator := 0, created_at := 1
    state := PollState.new 10 2
    config := { signup_period := 12, voting_period := 12, max_registrations := 5
                max_interactions := 5, process_subtree_depth := 1
                vote_option_tree_depth := 2, vote_options := [0, 1] } }

/-- Counterexample for C2 as stated: with `count_interactions = 0` and
`proof_index = 0`, the code hands back the **process** verify key even
though `expected_process = ⌈0 / 5⌉ = 0` makes the claimed condition
`proof_index < expected_process` false. -/
theorem C2_counterexample :
    (pollC2.getProofPublicInputs 0 coordC2 zeroBytes zeroBytes).1
        = coordC2.verify_key.process ∧
    coordC2.verify_key.process ≠ coordC2.verify_key.tally ∧
    pollC2.state.interactions.count = 0 ∧
    ¬ (0 < ceilDiv pollC2.state.interactions.count
        (pollC2.state.interactions.arity ^ pollC2.config.process_subtree_depth)) := by
  refine ⟨?_, by decide, by decide, by decide⟩
  decide

/-- Witness for C2 (amended) at the concrete zero-interaction poll. -/
theorem C2_witness :
    (pollC2.getProofPublicInputs 3 coordC2 zeroBytes zeroBytes).1 =
      if 0 < pollC2.state.interactions.count then
        (if 3 < ceilDiv pollC2.state.interactions.count
            (pollC2.state.interactions.arity ^ pollC2.config.process_subtree_depth)
         then coordC2.verify_key.process else coordC2.verify_key.tally)
      else
        (if 3 = 0 then coordC2.verify_key.process
         else coordC2.verify_key.tally) :=
  C2_verify_key_selection pollC2 3 coordC2 zeroBytes zeroBytes (by decide)

/-! ## Claim C1 -/

/-- Claim-side description of the seventh process signal: the width-3
Circom Poseidon hash of the coordinator public key coordinates
(`Poseidon2(x, y)`). -/
def poseidon2PubKeyHash (pk : PublicKey) : Nat :=
  match newCircom 2 with
  | .error _ => 0
  | .ok hasher =>
    match Poseidon.hash hasher ([pk.x, pk.y].map frFromBeBytesModOrder) with
    | .error _ => 0
    | .ok (r, _) => r

/-- The saturating upper clamp of `end_batch_index` is a `min`. -/
theorem ite_gt_eq_min (x c : Nat) : (if x > c then c else x) = min x c := by
  by_cases h : x > c
  · rw [if_pos h, Nat.min_eq_right (by omega)]
  · rw [if_neg h, Nat.min_eq_left (by omega)]

/-- C1: for every poll whose interaction tree has a root and every
`proof_index` targeting the process phase
(`proof_index < ⌈count / batch_size⌉`), `get_proof_public_inputs`
returns the process verify key together with exactly the nine field
elements of the claim, in order: `count_registrations + 1`, the
voting-period end block, the interaction-tree root, the registration
tree depth, `end_batch_index = min(current_batch_index + batch_size,
count_interactions)`, `current_batch_index` (the count rounded down to
the start of the last non-empty batch, `(⌈count / b⌉ - 1) * b`, minus
`proof_index * batch_size`), `Poseidon2` of the coordinator public key,
`curr_commitment` and `new_commitment`, all encoded with
`Fr::from_be_bytes_mod_order` / `Fr::from`. -/
theorem C1_process_public_inputs (poll : Poll) (proofIndex : Nat)
    (coordinator : Coordinator) (cc nc : HashBytes) (rootBytes : HashBytes)
    (ha : 1 ≤ poll.state.interactions.arity)
    (hroot : poll.state.interactions.root = some rootBytes)
    (hprocess : proofIndex < ceilDiv poll.state.interactions.count
      (poll.state.interactions.arity ^ poll.config.process_subtree_depth)) :
    poll.getProofPublicInputs proofIndex coordinator cc nc =
      (coordinator.verify_key.process,
       [frFromNat (poll.state.registrations.count + 1),
        frFromNat poll.getVotingPeriodEnd,
        frFromBeBytesModOrder rootBytes,
        frFromNat poll.state.registrations.depth,
        frFromNat (min
          ((ceilDiv poll.state.interactions.count
              (poll.state.interactions.arity ^ poll.config.process_subtree_depth) - 1) *
            (poll.state.interactions.arity ^ poll.config.process_subtree_depth) -
           proofIndex * (poll.state.interactions.arity ^ poll.config.process_subtree_depth) +
           poll.state.interactions.arity ^ poll.config.process_subtree_depth)
          poll.state.interactions.count),
        frFromNat
          ((ceilDiv poll.state.interactions.count
              (poll.state.interactions.arity ^ poll.config.process_subtree_depth) - 1) *
            (poll.state.interactions.arity ^ poll.config.process_subtree_depth) -
           proofIndex * (poll.state.interactions.arity ^ poll.config.process_subtree_depth)),
        poseidon2PubKeyHash coordinator.public_key,
        frFromBeBytesModOrder cc,
        frFromBeBytesModOrder nc]) := by
  have hb : 1 ≤ poll.state.interactions.arity ^ poll.config.process_subtree_depth :=
    Nat.one_le_pow _ _ ha
  have halign := align_eq_ceil poll.state.interactions.count
    (poll.state.interactions.arity ^ poll.config.process_subtree_depth) hb
  have hcond :
      proofIndex * (poll.state.interactions.arity ^ poll.config.process_subtree_depth) ≤
        (if poll.state.interactions.count > 0 then
          (if poll.state.interactions.count %
              (poll.state.interactions.arity ^ poll.config.process_subtree_depth) = 0 then
            poll.state.interactions.count -
              poll.state.interactions.arity ^ poll.config.process_subtree_depth
           else poll.state.interactions.count -
              poll.state.interactions.count %
                (poll.state.interactions.arity ^ poll.config.process_subtree_depth))
         else poll.state.interactions.count) := by
    rw [halign]
    exact Nat.mul_le_mul (by omega : proofIndex ≤
      ceilDiv poll.state.interactions.count
        (poll.state.interactions.arity ^ poll.config.process_subtree_depth) - 1)
      (Nat.le_refl _)
  have hcirc : newCircom 2 = .ok ⟨width3Params, 0, []⟩ := rfl
  obtain ⟨r, hr⟩ := Poseidon.hash_ok width3Params 0
    (List.map frFromBeBytesModOrder [coordinator.public_key.x, coordinator.public_key.y])
    (by rfl)
  have hpk : poseidon2PubKeyHash coordinator.public_key = r := by
    unfold poseidon2PubKeyHash
    rw [hcirc]
    simp only [hr]
  unfold Poll.getProofPublicInputs
  rw [if_pos hcond]
  simp only [hcirc, hr, hroot, hpk, halign, ite_gt_eq_min]

/-- A poll whose interaction tree has been merged to a root, with one
interaction recorded. -/
def pollC1 : Poll :=
  { index := 0, coordinator := 0, created_at := 1
    state :=
      { registrations :=
          { depth := 2, full_depth := 10, arity := 2, count := 3
            hashes := [(1, natToBytesBe 5), (0, natToBytesBe 6)], root := none }
        interactions :=
          { depth := 1, full_depth := 2, arity := 5, count := 1
            hashes := [], root := some (natToBytesBe 7) }
        commitment :=
          { process := (0, zeroBytes), tally := (0, zeroBytes)
            expected_process := 0, expected_tally := 0 }
        outcome := none
        tombstone := false }
    config := { signup_period := 12, voting_period := 12, max_registrations := 5
                max_interactions := 5, process_subtree_depth := 1
                vote_option_tree_depth := 2, vote_options := [0, 1] } }

/-- Witness for C1 at `pollC1` with `proof_index = 0`. -/
theorem C1_witness :
    pollC1.getProofPublicInputs 0 coordC2 (natToBytesBe 8) (natToBytesBe 9) =
      (coordC2.verify_key.process,
       [frFromNat (pollC1.state.registrations.count + 1),
        frFromNat pollC1.getVotingPeriodEnd,
        frFromBeBytesModOrder (natToBytesBe 7),
        frFromNat pollC1.state.registrations.depth,
        frFromNat (min
          ((ceilDiv pollC1.state.interactions.count
              (pollC1.state.interactions.arity ^ pollC1.config.process_subtree_depth) - 1) *
            (pollC1.state.interactions.arity ^ pollC1.config.process_subtree_depth) -
           0 * (pollC1.state.interactions.arity ^ pollC1.config.process_subtree_depth) +
           pollC1.state.interactions.arity ^ pollC1.config.process_subtree_depth)
          pollC1.state.interactions.count),
        frFromNat
          ((ceilDiv pollC1.state.interactions.count
              (pollC1.state.interactions.arity ^ pollC1.config.process_subtree_depth) - 1) *
            (pollC1.state.interactions.arity ^ pollC1.config.process_subtree_depth) -
           0 * (pollC1.state.interactions.arity ^ pollC1.config.process_subtree_depth)),
        poseidon2PubKeyHash coordC2.public_key,
        frFromBeBytesModOrder (natToBytesBe 8),
        frFromBeBytesModOrder (natToBytesBe 9)]) :=
  C1_process_public_inputs pollC1 0 coordC2 (natToBytesBe 8) (natToBytesBe 9)
    (natToBytesBe 7) (by decide) rfl (by decide)

/-! ## Claim C3 -/

/-- A poll with `vote_option_tree_depth = 3` whose registration-tree
merge succeeds (the tree holds only the sentinel, so `merge(false)`
stops at once and promotes it to the root). -/
def pollC3 : Poll :=
  { index := 0, coordinator := 0, created_at := 1
    state := PollState.new 2 2
    config := { signup_period := 12, voting_period := 12, max_registrations := 5
                max_interactions := 5, process_subtree_depth := 1
                vote_option_tree_depth := 3, vote_options := [0, 1] } }

/-- C3 (refuted; `merge_registrations` hardcodes `EMPTY_BALLOT_ROOTS[1]`):
for the poll `pollC3` with `vote_option_tree_depth = 3`, the seeded
process commitment pairs index `0` with
`H3(registrations.root, EMPTY_BALLOT_ROOTS[1], 0)` — the table entry at
the fixed index `1` — although the claim requires the entry indexed by
the poll's `vote_option_tree_depth`, and the two entries (and the
resulting commitments) differ.  The inequalities are evaluated under the
spec-modelled zero/ballot tables and parameter table. -/
theorem C3_commitment_uses_fixed_ballot_root_index :
    (Poll.mergeRegistrations pollC3).map (fun p => p.state.commitment.process) =
      .ok (0, (treeHash [zeroBytes, EMPTY_BALLOT_ROOTS 1, zeroBytes]).toOption.getD
        zeroBytes) ∧
    pollC3.config.vote_option_tree_depth = 3 ∧
    EMPTY_BALLOT_ROOTS 1 ≠ EMPTY_BALLOT_ROOTS 3 ∧
    (treeHash [zeroBytes, EMPTY_BALLOT_ROOTS 1, zeroBytes]).toOption.getD zeroBytes ≠
      (treeHash [zeroBytes, EMPTY_BALLOT_ROOTS 3, zeroBytes]).toOption.getD zeroBytes :=
  ⟨rfl, rfl, by decide, by decide⟩

/-! ## Claim C4

The accumulator invariant.  `hashes` is analysed through the depth list
of its **reversed** entry list (`Vec` tail first): there the depths are
non-decreasing, grouped into runs of fewer than `arity` equal values
with strictly increasing depths between groups.  `GoodFrom a lo l` says
`l` consists of such groups with all depths at least `lo`. -/

/-- Reversed depth lists of a well-formed accumulator: maximal runs of
equal depths, each shorter than `a`, with strictly increasing depths
from group to group, all at least `lo`. -/
inductive GoodFrom (a : Nat) : Nat → List Nat → Prop where
  | nil (lo : Nat) : GoodFrom a lo []
  | grp (lo d k : Nat) (rest : List Nat) :
      lo ≤ d → 1 ≤ k → k + 1 ≤ a → GoodFrom a (d + 1) rest →
      GoodFrom a lo (List.replicate k d ++ rest)

/-- Lower bounds weaken. -/
theorem GoodFrom.mono {a lo lo' : Nat} {l : List Nat}
    (h : GoodFrom a lo l) (hle : lo' ≤ lo) : GoodFrom a lo' l := by
  cases h with
  | nil => exact GoodFrom.nil lo'
  | grp lo d k rest hlod hk hka hrest =>
    exact GoodFrom.grp lo' d k rest (hle.trans hlod) hk hka hrest

/-- Every element is at least the lower bound. -/
theorem GoodFrom.mem_lb {a lo : Nat} {l : List Nat}
    (h : GoodFrom a lo l) : ∀ x ∈ l, lo ≤ x := by
  induction h with
  | nil => intro x hx; cases hx
  | grp lo d k rest hlod hk hka hrest ih =>
    intro x hx
    rcases List.mem_append.mp hx with hx | hx
    · rw [List.eq_of_mem_replicate hx]; exact hlod
    · exact hlod.trans ((Nat.le_succ d).trans (ih x hx))

/-- The head of a non-empty good list is at least the lower bound. -/
theorem GoodFrom.head_lb {a lo x : Nat} {l : List Nat}
    (h : GoodFrom a lo (x :: l)) : lo ≤ x :=
  h.mem_lb x (List.mem_cons_self x l)

/-- A constant list is a `≤`-chain. -/
theorem chain'_replicate_le (k d : Nat) : (List.replicate k d).Chain' (· ≤ ·) := by
  induction k with
  | zero => exact List.chain'_nil
  | succ n ihn =>
    rw [List.replicate_succ]
    rcases n with _ | m
    · exact List.chain'_singleton d
    · rw [List.replicate_succ]
      rw [List.replicate_succ] at ihn
      exact List.Chain'.cons (Nat.le_refl d) ihn

/-- A good list is non-decreasing. -/
theorem GoodFrom.chain' {a lo : Nat} {l : List Nat}
    (h : GoodFrom a lo l) : l.Chain' (· ≤ ·) := by
  induction h with
  | nil => exact List.chain'_nil
  | grp lo d k rest hlod hk hka hrest ih =>
    apply List.Chain'.append (chain'_replicate_le k d) ih
    intro x hx y hy
    have hxd : x = d := by
      rcases k with _ | n
      · simp at hx
      · rw [List.getLast?_eq_getLast _ (by simp), List.getLast_replicate] at hx
        exact (Option.some_inj.mp hx).symm
    have hyd : d + 1 ≤ y := hrest.mem_lb y (List.mem_of_mem_head? hy)
    omega


/-- No `ar` consecutive entries of a good list share a value: a constant
run of length `ar` is never an infix. -/
theorem GoodFrom.no_run {ar lo : Nat} {l : List Nat}
    (har : 1 ≤ ar) (h : GoodFrom ar lo l) :
    ∀ d, ¬ List.replicate ar d <:+: l := by
  induction h with
  | nil =>
    intro d hinf
    have hlen := hinf.length_le
    simp at hlen
    omega
  | grp lo d' k rest hlod hk hka hrest ih =>
    intro d hinf
    obtain ⟨pre, suf, heq⟩ := hinf
    rw [List.append_assoc] at heq
    rcases List.append_eq_append_iff.mp heq with ⟨mid, hpre, hmid⟩ | ⟨mid, hpre, hmid⟩
    · -- the claimed run starts inside the head group
      have hmidrep : mid = List.replicate mid.length d' := by
        apply List.eq_replicate_of_mem
        intro b hb
        exact List.eq_of_mem_replicate
          (show b ∈ List.replicate k d' by rw [hpre]; exact List.mem_append_right pre hb)
      have hmk : mid.length ≤ k := by
        have hlen := congrArg List.length hpre
        simp at hlen
        omega
      rcases Nat.eq_zero_or_pos mid.length with hm0 | hm0
      · refine ih d ⟨[], suf, ?_⟩
        rw [List.length_eq_zero.mp hm0] at hmid
        simpa using hmid
      · have hrest_eq : rest = List.replicate (ar - mid.length) d ++ suf := by
          have hdrop := congrArg (List.drop mid.length) hmid
          rw [List.drop_left, List.drop_append_eq_append_drop, List.drop_replicate,
            List.length_replicate,
            Nat.sub_eq_zero_of_le (by omega : mid.length ≤ ar),
            List.drop_zero] at hdrop
          exact hdrop.symm
        have hd_ge : d' + 1 ≤ d := by
          apply hrest.mem_lb
          rw [hrest_eq]
          exact List.mem_append_left _ (List.mem_replicate.mpr ⟨by omega, rfl⟩)
        have hmid2 : List.replicate (min mid.length ar) d = mid := by
          have htake := congrArg (List.take mid.length) hmid
          rw [List.take_left, List.take_append_eq_append_take, List.take_replicate,
            List.length_replicate,
            Nat.sub_eq_zero_of_le (by omega : mid.length ≤ ar),
            List.take_zero, List.append_nil] at htake
          exact htake
        have hd_eq : d = d' := by
          have hL : (List.replicate (min mid.length ar) d).head? = some d := by
            rw [List.head?_replicate, if_neg (by omega)]
          have hR : mid.head? = some d' := by
            conv_lhs => rw [hmidrep]
            rw [List.head?_replicate, if_neg (by omega)]
          rw [hmid2, hR] at hL
          exact (Option.some_inj.mp hL).symm
        omega
    · exact ih d ⟨mid, suf, by rw [List.append_assoc, ← hmid]⟩

/-- Length bound: with every depth below `fd` and all runs shorter than
`ar`, a good list has at most `(ar - 1) * (fd - lo)` entries. -/
theorem GoodFrom.length_le {ar lo fd : Nat} {l : List Nat}
    (h : GoodFrom ar lo l) (hfd : ∀ x ∈ l, x < fd) :
    l.length ≤ (ar - 1) * (fd - lo) := by
  induction h with
  | nil => exact Nat.zero_le _
  | grp lo d k rest hlod hk hka hrest ih =>
    have hdfd : d < fd := by
      apply hfd
      exact List.mem_append_left _ (List.mem_replicate.mpr ⟨by omega, rfl⟩)
    have hrest_fd : ∀ x ∈ rest, x < fd := fun x hx =>
      hfd x (List.mem_append_right _ hx)
    have hrec := ih hrest_fd
    have hsub : fd - d = (fd - (d + 1)) + 1 := by omega
    have hmul : (ar - 1) * (fd - d) = (ar - 1) * (fd - (d + 1)) + (ar - 1) := by
      rw [hsub, Nat.mul_succ]
    have hmono : (ar - 1) * (fd - d) ≤ (ar - 1) * (fd - lo) :=
      Nat.mul_le_mul_left _ (by omega)
    simp only [List.length_append, List.length_replicate]
    omega

/-- The accumulator invariant: once the root is set the `hashes` list is
empty; before that, the reversed depth list is good (non-decreasing,
runs shorter than the arity, strictly increasing between runs) and every
stored depth is below `full_depth`. -/
def TreeInv (t : PollStateTree) : Prop :=
  match t.root with
  | some _ => t.hashes = []
  | none => GoodFrom t.arity 0 ((t.hashes.map Prod.fst).reverse) ∧
      ∀ e ∈ t.hashes, e.1 < t.full_depth

/-- The invariant carried through the compaction loop of `insert`: the
reversed depth list starts with a run of `k ≤ arity` copies of some
depth `d ≤ full_depth`, everything after that run is good above `d`,
all later depths are below `full_depth`, and `d` itself is below
`full_depth` as soon as the head run has at least two entries. -/
def LoopInv (ar fd : Nat) (rl : List (Nat × HashBytes)) : Prop :=
  ∃ k d rest, rl.map Prod.fst = List.replicate k d ++ rest ∧ 1 ≤ k ∧ k ≤ ar ∧
    GoodFrom ar (d + 1) rest ∧ d ≤ fd ∧ (∀ x ∈ rest, x < fd) ∧ (2 ≤ k → d < fd)

/-- On exit (head run shorter than the arity), the loop invariant turns
into the dichotomy: either the list is the single full-depth root
candidate, or it is good from depth 0 with every depth below
`full_depth`. -/
theorem loopInv_exit (ar fd : Nat) (rl : List (Nat × HashBytes))
    (k d : Nat) (rest : List Nat)
    (hdec : rl.map Prod.fst = List.replicate k d ++ rest) (hk : 1 ≤ k)
    (hka : k + 1 ≤ ar) (hrest : GoodFrom ar (d + 1) rest) (hdfd : d ≤ fd)
    (hrestfd : ∀ x ∈ rest, x < fd) (hk2 : 2 ≤ k → d < fd) :
    rl.map Prod.fst = [fd] ∨
      (GoodFrom ar 0 (rl.map Prod.fst) ∧ ∀ x ∈ rl.map Prod.fst, x < fd) := by
  rcases Nat.lt_or_ge d fd with hdlt | hdge
  · right
    constructor
    · rw [hdec]
      exact GoodFrom.grp 0 d k rest (Nat.zero_le d) hk hka hrest
    · intro x hx
      rw [hdec] at hx
      rcases List.mem_append.mp hx with hx | hx
      · rw [List.eq_of_mem_replicate hx]; exact hdlt
      · exact hrestfd x hx
  · left
    have hdeq : d = fd := by omega
    have hrest_nil : rest = [] := by
      rcases rest with _ | ⟨r0, rest'⟩
      · rfl
      · exfalso
        have h1 := hrest.head_lb
        have h2 := hrestfd r0 (List.mem_cons_self r0 rest')
        omega
    have hk1 : k = 1 := by
      rcases Nat.lt_or_ge k 2 with h | h
      · omega
      · exact absurd (hk2 h) (by omega)
    rw [hdec, hrest_nil, hk1, hdeq]
    rfl

/-- The compaction loop of `insert` preserves the loop invariant; when it
returns successfully, its result satisfies the exit dichotomy. -/
theorem insertLoop_ok (ar fd : Nat) (har : 2 ≤ ar) :
    ∀ fuel (rl : List (Nat × HashBytes)) depth rl' depth',
      PollStateTree.insertLoop ar fuel rl depth = .ok (rl', depth') →
      LoopInv ar fd rl →
      rl'.map Prod.fst = [fd] ∨
        (GoodFrom ar 0 (rl'.map Prod.fst) ∧ ∀ x ∈ rl'.map Prod.fst, x < fd) := by
  intro fuel
  induction fuel with
  | zero => intro rl depth rl' depth' hok; cases hok
  | succ fuel ih =>
    intro rl depth rl' depth' hok hinv
    obtain ⟨k, d, rest, hdec, hk, hka, hrest, hdfd, hrestfd, hk2⟩ := hinv
    rw [PollStateTree.insertLoop] at hok
    by_cases hlen : rl.length < ar
    · rw [if_pos hlen] at hok
      obtain ⟨rfl, rfl⟩ : rl = rl' ∧ depth = depth' := by
        cases hok; exact ⟨rfl, rfl⟩
      have hka' : k + 1 ≤ ar := by
        have hlen2 : (rl.map Prod.fst).length = k + rest.length := by
          rw [hdec]; simp
        simp at hlen2
        omega
      exact loopInv_exit ar fd rl k d rest hdec hk hka' hrest hdfd hrestfd hk2
    · rw [if_neg hlen] at hok
      have hlenge : ar ≤ rl.length := by omega
      rcases hrl : rl with _ | ⟨⟨d0, h0⟩, rltail⟩
      · rw [hrl] at hlenge; simp at hlenge; omega
      rw [hrl] at hok hdec hlenge
      have htake_head : ((((d0, h0) :: rltail).take ar).head?) = some (d0, h0) := by
        rcases Nat.exists_eq_add_of_lt (by omega : 0 < ar) with ⟨m, hm⟩
        rw [Nat.zero_add] at hm
        rw [hm, List.take_succ_cons]
        rfl
      split at hok
      next heq =>
        rw [htake_head] at heq
        cases heq
      next dm sm heq =>
      rw [htake_head] at heq
      cases heq
      have hd0 : d0 = d := by
        have hcons : ((d0, h0) :: rltail).map Prod.fst = d0 :: rltail.map Prod.fst := rfl
        rw [hcons] at hdec
        rcases k with _ | k'
        · omega
        · rw [List.replicate_succ] at hdec
          exact ((List.cons.injEq _ _ _ _).mp hdec).1
      subst hd0
      by_cases hall : (((d0, h0) :: rltail).take ar).all (fun e => decide (e.1 = d0)) = true
      · rw [if_pos hall] at hok
        -- the head run fills the whole block: k = ar
        have hkar : k = ar := by
          rcases Nat.lt_or_ge k ar with hklt | hkge
          · exfalso
            have hrest_len : 1 ≤ rest.length := by
              have hlen2 := congrArg List.length hdec
              rw [List.length_map, List.length_cons, List.length_append,
                List.length_replicate] at hlen2
              have hlenge2 : ar ≤ rltail.length + 1 := by
                rw [List.length_cons] at hlenge
                exact hlenge
              omega
            rcases hrest0 : rest with _ | ⟨r0, rest'⟩
            · rw [hrest0] at hrest_len; simp at hrest_len
            · have hr0d : r0 = d0 := by
                have hr0mem : r0 ∈ (((d0, h0) :: rltail).take ar).map Prod.fst := by
                  rw [List.map_take, hdec, hrest0, List.take_append_eq_append_take,
                    List.take_replicate, Nat.min_eq_right (by omega),
                    List.length_replicate]
                  refine List.mem_append_right _ ?_
                  have hsub : ar - k = (ar - k - 1) + 1 := by omega
                  rw [hsub, List.take_succ_cons]
                  exact List.mem_cons_self _ _
                obtain ⟨e, he, hefst⟩ := List.mem_map.mp hr0mem
                have hed := List.all_eq_true.mp hall e he
                simp at hed
                omega
              have hr0lb : d0 + 1 ≤ r0 :=
                hrest.mem_lb r0 (by rw [hrest0]; exact List.mem_cons_self _ _)
              omega
          · omega
        subst hkar
        have hdlt : d0 < fd := hk2 har
        have hdrop : (List.drop k ((d0, h0) :: rltail)).map Prod.fst = rest := by
          rw [List.map_drop, hdec, List.drop_append_eq_append_drop, List.drop_replicate,
            List.length_replicate, Nat.sub_self, List.drop_zero, List.replicate_zero,
            List.nil_append]
        rcases htr : treeHash (((((d0, h0) :: rltail).take k).reverse).map Prod.snd)
          with e | digest
        · rw [htr] at hok
          cases hok
        · rw [htr] at hok
          apply ih _ _ _ _ hok
          have hmapnew : (((d0 + 1, digest) :: List.drop k ((d0, h0) :: rltail)).map
              Prod.fst) = (d0 + 1) :: rest := by
            rw [List.map_cons, hdrop]
          cases hrest with
          | nil =>
            refine ⟨1, d0 + 1, [], ?_, ?_, ?_, ?_, ?_, ?_, ?_⟩
            · rw [hmapnew]; rfl
            · exact Nat.le_refl 1
            · omega
            · exact GoodFrom.nil _
            · omega
            · intro x hx; cases hx
            · omega
          | grp lo2 d2 k2 rest2 hlo2 hk2' hka2 hrest2 =>
            by_cases hd2 : d2 = d0 + 1
            · refine ⟨k2 + 1, d0 + 1, rest2, ?_, by omega, hka2, ?_, by omega, ?_, ?_⟩
              · rw [hmapnew, hd2, List.replicate_succ, List.cons_append]
              · exact hd2 ▸ hrest2
              · intro x hx
                exact hrestfd x (List.mem_append_right _ hx)
              · intro h2k
                have hd2fd : d2 < fd := hrestfd d2
                  (List.mem_append_left _ (List.mem_replicate.mpr ⟨by omega, rfl⟩))
                omega
            · refine ⟨1, d0 + 1, List.replicate k2 d2 ++ rest2, by rw [hmapnew]; rfl,
                Nat.le_refl 1, by omega, ?_, by omega, hrestfd, by omega⟩
              exact GoodFrom.grp _ d2 k2 rest2 (by omega) hk2' hka2 hrest2
      · rw [if_neg hall] at hok
        obtain ⟨rfl, rfl⟩ : (d0, h0) :: rltail = rl' ∧ depth = depth' := by
          cases hok; exact ⟨rfl, rfl⟩
        have hka' : k + 1 ≤ ar := by
          rcases Nat.lt_or_ge k ar with h | h
          · omega
          · exfalso
            apply hall
            have hmap_take : (((d0, h0) :: rltail).take ar).map Prod.fst
                = List.replicate ar d0 := by
              rw [List.map_take, hdec, List.take_append_eq_append_take,
                List.take_replicate, Nat.min_eq_left (by omega), List.length_replicate,
                Nat.sub_eq_zero_of_le (by omega), List.take_zero, List.append_nil]
            rw [List.all_eq_true]
            intro e he
            have hmem : e.1 ∈ (((d0, h0) :: rltail).take ar).map Prod.fst :=
              List.mem_map_of_mem Prod.fst he
            rw [hmap_take] at hmem
            simp [List.eq_of_mem_replicate hmem]
        exact loopInv_exit ar fd _ k d0 rest hdec hk hka' hrest hdfd hrestfd hk2

/-- Pushing the fresh `(0, leaf)` entry onto a stable list establishes
the loop invariant. -/
theorem loopInv_push (ar fd : Nat) (har : 2 ≤ ar) (hfd : 1 ≤ fd)
    (old : List (Nat × HashBytes)) (leaf : HashBytes)
    (hgood : GoodFrom ar 0 (old.map Prod.fst))
    (hmem : ∀ x ∈ old.map Prod.fst, x < fd) :
    LoopInv ar fd ((0, leaf) :: old) := by
  generalize hds : old.map Prod.fst = ds at hgood hmem
  cases hgood with
  | nil =>
    refine ⟨1, 0, [], ?_, Nat.le_refl 1, by omega, GoodFrom.nil _, by omega,
      ?_, ?_⟩
    · rw [List.map_cons, hds]
      rfl
    · intro x hx; cases hx
    · omega
  | grp lo d' k' rest' hlod hk' hka' hrest' =>
    by_cases hd' : d' = 0
    · subst hd'
      refine ⟨k' + 1, 0, rest', ?_, by omega, by omega, hrest', by omega, ?_, ?_⟩
      · rw [List.map_cons, hds, List.replicate_succ, List.cons_append]
      · intro x hx
        exact hmem x (List.mem_append_right _ hx)
      · intro h2k
        omega
    · refine ⟨1, 0, List.replicate k' d' ++ rest', ?_, Nat.le_refl 1, by omega, ?_,
        by omega, hmem, by omega⟩
      · rw [List.map_cons, hds]
        rfl
      · exact GoodFrom.grp _ d' k' rest' (by omega) hk' hka' hrest'

/-- `insert` preserves the accumulator invariant (and the tree's static
parameters). -/
theorem insert_preserves (t t' : PollStateTree) (leaf : HashBytes)
    (har : 2 ≤ t.arity) (hfd : 1 ≤ t.full_depth)
    (hinv : TreeInv t) (hok : t.insert leaf = .ok t') :
    TreeInv t' ∧ t'.arity = t.arity ∧ t'.full_depth = t.full_depth := by
  unfold PollStateTree.insert at hok
  by_cases hroot : t.root = none
  · rw [if_neg (by simp [hroot])] at hok
    have hinv' : GoodFrom t.arity 0 ((t.hashes.map Prod.fst).reverse) ∧
        ∀ e ∈ t.hashes, e.1 < t.full_depth := by
      unfold TreeInv at hinv
      rw [hroot] at hinv
      exact hinv
    obtain ⟨hgood, hmem⟩ := hinv'
    have hloopInv : LoopInv t.arity t.full_depth ((0, leaf) :: t.hashes.reverse) := by
      apply loopInv_push t.arity t.full_depth har hfd t.hashes.reverse leaf
      · rw [List.map_reverse]
        exact hgood
      · intro x hx
        rw [List.map_reverse, List.mem_reverse] at hx
        obtain ⟨e, he, hef⟩ := List.mem_map.mp hx
        rw [← hef]
        exact hmem e he
    split at hok
    next e heq =>
      cases hok
    next rhs dep heq =>
      have hdich := insertLoop_ok t.arity t.full_depth har _ _ _ _ _ heq hloopInv
      by_cases hcond : rhs.length = 1 ∧ (rhs.headD (0, zeroBytes)).1 = t.full_depth
      · rw [if_pos hcond] at hok
        cases hok
        refine ⟨?_, rfl, rfl⟩
        unfold TreeInv
        rfl
      · rw [if_neg hcond] at hok
        cases hok
        refine ⟨?_, rfl, rfl⟩
        unfold TreeInv
        rw [hroot]
        rcases hdich with hfdcase | ⟨hgood', hmem'⟩
        · exfalso
          apply hcond
          rcases rhs with _ | ⟨⟨dx, bx⟩, rtl⟩
          · cases hfdcase
          · have hcons : dx :: rtl.map Prod.fst = [t.full_depth] := hfdcase
            have hdx : dx = t.full_depth := ((List.cons.injEq _ _ _ _).mp hcons).1
            have hrtl : rtl.map Prod.fst = [] := ((List.cons.injEq _ _ _ _).mp hcons).2
            have hrtl' : rtl = [] := List.map_eq_nil_iff.mp hrtl
            subst hrtl'
            exact ⟨rfl, hdx⟩
        · constructor
          · rw [List.map_reverse, List.reverse_reverse]
            exact hgood'
          · intro e he
            rw [List.mem_reverse] at he
            exact hmem' e.1 (List.mem_map_of_mem Prod.fst he)
  · rw [if_pos hroot] at hok
    cases hok

/-- Trees reachable from `PollStateTree::new` by successful `insert`
calls. -/
inductive Reached (ar fd : Nat) (zh : Option (Nat × HashBytes)) : PollStateTree → Prop
  | base : Reached ar fd zh (PollStateTree.new ar fd zh)
  | step (t t' : PollStateTree) (leaf : HashBytes) :
      Reached ar fd zh t → t.insert leaf = .ok t' → Reached ar fd zh t'

/-- Every reachable tree satisfies the accumulator invariant and keeps
its construction parameters. -/
theorem reached_inv (ar fd : Nat) (zh : Option (Nat × HashBytes))
    (har : 2 ≤ ar) (hfd : 1 ≤ fd)
    (hzh : zh = none ∨ ∃ z, zh = some (0, z)) :
    ∀ t, Reached ar fd zh t → TreeInv t ∧ t.arity = ar ∧ t.full_depth = fd := by
  intro t h
  induction h with
  | base =>
    rcases hzh with hzh | ⟨z, hzh⟩
    · subst hzh
      exact ⟨⟨GoodFrom.nil _, by intro e he; cases he⟩, rfl, rfl⟩
    · subst hzh
      refine ⟨⟨?_, ?_⟩, rfl, rfl⟩
      · have h1 : ((((PollStateTree.new ar fd (some (0, z))).hashes.map
            Prod.fst)).reverse) = List.replicate 1 0 ++ [] := rfl
        rw [h1]
        exact GoodFrom.grp 0 0 1 [] (Nat.le_refl 0) (Nat.le_refl 1) har
          (GoodFrom.nil _)
      · intro e he
        have he' : e ∈ [((0 : Nat), z)] := he
        rw [List.mem_singleton] at he'
        subst he'
        exact hfd
  | step t t' leaf hreach hins ih =>
    obtain ⟨hinv, hari, hfdi⟩ := ih
    obtain ⟨hinv', ha', hf'⟩ := insert_preserves t t' leaf (by omega) (by omega) hinv hins
    exact ⟨hinv', by omega, by omega⟩

/-- C4 (amended): for every tree reachable from `PollStateTree::new`
with the pallet's parameters (arity at least 2, positive `full_depth`,
an optional sentinel at depth 0) by successful inserts, the `hashes`
list is monotone **non-increasing** in depth (not non-decreasing as
claimed), contains at most `arity - 1` consecutive entries at any
single depth (no constant run of length `arity` is an infix of the
depth list), has length at most `arity * full_depth`, and once `root`
is set every further insert fails with `TreeAlreadyFull`. -/
theorem C4_accumulator_invariants (ar fd : Nat) (zh : Option (Nat × HashBytes))
    (t : PollStateTree) (har : 2 ≤ ar) (hfd : 1 ≤ fd)
    (hzh : zh = none ∨ ∃ z, zh = some (0, z))
    (hreach : Reached ar fd zh t) :
    List.Chain' (fun x y => y.1 ≤ x.1) t.hashes ∧
    (∀ d, ¬ List.replicate ar d <:+: t.hashes.map Prod.fst) ∧
    t.hashes.length ≤ ar * fd ∧
    (t.root ≠ none → ∀ leaf, t.insert leaf = .error .TreeAlreadyFull) := by
  obtain ⟨hinv, hari, hfdi⟩ := reached_inv ar fd zh har hfd hzh t hreach
  have hguard : t.root ≠ none → ∀ leaf, t.insert leaf = .error .TreeAlreadyFull := by
    intro hr leaf
    unfold PollStateTree.insert
    rw [if_pos hr]
  rcases hr : t.root with _ | r
  · -- root unset: the invariant provides the good structure
    have hinv' : GoodFrom t.arity 0 ((t.hashes.map Prod.fst).reverse) ∧
        ∀ e ∈ t.hashes, e.1 < t.full_depth := by
      unfold TreeInv at hinv
      rw [hr] at hinv
      exact hinv
    obtain ⟨hgood, hmem⟩ := hinv'
    rw [hari] at hgood
    refine ⟨?_, ?_, ?_, fun hcon => absurd rfl hcon⟩
    · have hc := hgood.chain'
      rw [List.chain'_reverse] at hc
      rw [← List.chain'_map (f := Prod.fst) (R := fun x y => y ≤ x)]
      exact hc
    · intro d hinf
      have hinf' : List.replicate ar d <:+: (t.hashes.map Prod.fst).reverse := by
        rw [← List.reverse_replicate ar d, List.reverse_infix]
        exact hinf
      exact hgood.no_run (by omega) d hinf'
    · have hmem' : ∀ x ∈ (t.hashes.map Prod.fst).reverse, x < fd := by
        intro x hx
        rw [List.mem_reverse] at hx
        obtain ⟨e, he, hef⟩ := List.mem_map.mp hx
        rw [← hef, ← hfdi]
        exact hmem e he
      have hlen := hgood.length_le hmem'
      have hmul : (ar - 1) * (fd - 0) ≤ ar * fd :=
        Nat.mul_le_mul (by omega) (by omega)
      have hlen2 : (t.hashes.map Prod.fst).reverse.length = t.hashes.length := by
        simp
      omega
  · -- root set: the list is empty
    have hnil : t.hashes = [] := by
      unfold TreeInv at hinv
      rw [hr] at hinv
      exact hinv
    rw [hnil]
    refine ⟨List.chain'_nil, ?_, by simp, fun _ => hguard (by rw [hr]; simp)⟩
    intro d hinf
    have := hinf.length_le
    simp at this
    omega


/-- Counterexample for C4 as stated: after inserting three leaves into a
fresh arity-2 tree the depth list reads `[1, 0]` — monotone
non-increasing, not the claimed non-decreasing — and a zero-`full_depth`
tree seeded with the sentinel already violates the claimed
`arity * full_depth` length bound before any insert. -/
theorem C4_counterexample :
    ((((PollStateTree.new 2 3 none).insert (natToBytesBe 1)).bind
        (fun t => t.insert (natToBytesBe 2))).bind
        (fun t => t.insert (natToBytesBe 3))).map
      (fun t => t.hashes.map Prod.fst) = .ok [1, 0] ∧
    ¬ List.Chain' (fun x y => x ≤ y) [1, 0] ∧
    ¬ ((PollStateTree.new 2 0 (some (0, zeroBytes))).hashes.length ≤ 2 * 0) := by
  refine ⟨?_, fun h => absurd (List.chain'_cons.mp h).1 (by decide), by decide⟩
  rfl

/-- Witness for C4 (amended) at the freshly created registration-style
tree with arity 2, full depth 1 and the zero sentinel. -/
theorem C4_witness :
    List.Chain' (fun x y => y.1 ≤ x.1)
      (PollStateTree.new 2 1 (some (0, zeroBytes))).hashes ∧
    (∀ d, ¬ List.replicate 2 d <:+:
      (PollStateTree.new 2 1 (some (0, zeroBytes))).hashes.map Prod.fst) ∧
    (PollStateTree.new 2 1 (some (0, zeroBytes))).hashes.length ≤ 2 * 1 ∧
    ((PollStateTree.new 2 1 (some (0, zeroBytes))).root ≠ none →
      ∀ leaf, (PollStateTree.new 2 1 (some (0, zeroBytes))).insert leaf
        = .error .TreeAlreadyFull) :=
  C4_accumulator_invariants 2 1 (some (0, zeroBytes)) _ (by decide) (by decide)
    (Or.inr ⟨zeroBytes, rfl⟩) Reached.base
